import Mathlib

/-!
Shallow embedding of the QuSim quantum-circuit simulator core
(`qusim/core/state.py`, `qusim/core/gates.py`, `qusim/core/circuit.py`,
`qusim/backends/statevector.py`, `qusim/backends/stabilizer.py`,
`qusim/backends/base.py`, `qusim/noise/kraus.py`, `qusim/noise/channels.py`),
together with theorems settling the specification claims. Machine floats are
modelled as real numbers, complex amplitudes as `ℂ`, numpy arrays as functions
on `Fin`/`ℕ` indices, and Python exceptions as `Except String`.
-/

namespace QuSim

/-- A statevector on `n` qubits: a complex amplitude for each of the `2 ^ n`
flattened basis indices (`state` array of `QuantumState`, pure case). -/
def QVec (n : ℕ) := Fin (2 ^ n) → ℂ

/-- A density matrix on `n` qubits (`state` array of `QuantumState`, mixed case). -/
def DMat (n : ℕ) := Fin (2 ^ n) → Fin (2 ^ n) → ℂ

/-- The initial basis state with all qubits 0: amplitude 1 at flattened index 0
(`state[0] = 1.0` in `StatevectorBackend.execute`). -/
def zeroVec (n : ℕ) : QVec n := fun i => if i.val = 0 then 1 else 0

/-- Bit of the flattened basis index `i` belonging to qubit `q` under the
code's qubit-0-is-most-significant convention: the `ndindex`/`format(i, nb)`
component `idx[q]`, i.e. `(i / 2 ^ (n - 1 - q)) % 2`. -/
def bitAt (n q i : ℕ) : ℕ := (i / 2 ^ (n - 1 - q)) % 2

/-- Total squared L2 norm of a statevector, `sum(|amp|**2)`. -/
noncomputable def tns {n : ℕ} (ψ : QVec n) : ℝ :=
  ∑ i, Complex.normSq (ψ i)

/-- Probability mass on outcome 0 of qubit `q` computed by
`QuantumState._measure_statevector`: the sum of `abs(amp)**2` over all basis
indices whose `q`-th bit is 0. -/
noncomputable def prob0 {n : ℕ} (ψ : QVec n) (q : ℕ) : ℝ :=
  ∑ i, if bitAt n q i.val = 0 then Complex.normSq (ψ i) else 0

/-- The `np.random.choice([0, 1], p=[prob_0, 1 - prob_0])` sample, with `r`
the uniform draw in `[0, 1)` behind it: outcome 0 exactly when `r < prob_0`. -/
noncomputable def measureOutcome {n : ℕ} (ψ : QVec n) (q : ℕ) (r : ℝ) : ℕ :=
  if r < prob0 ψ q then 0 else 1

/-- The collapse loop of `_measure_statevector`: zero out every amplitude
whose `q`-th bit differs from the outcome. -/
noncomputable def maskV {n : ℕ} (ψ : QVec n) (q o : ℕ) : QVec n :=
  fun i => if bitAt n q i.val = o then ψ i else 0

/-- The renormalization step: divide by `np.linalg.norm` of the projected
state when that norm is positive, else leave the state unrenormalized. -/
noncomputable def collapseV {n : ℕ} (ψ : QVec n) (q o : ℕ) : QVec n :=
  if 0 < Real.sqrt (tns (maskV ψ q o)) then
    fun i => maskV ψ q o i / ((Real.sqrt (tns (maskV ψ q o)) : ℝ) : ℂ)
  else maskV ψ q o

/-- One call of `QuantumState._measure_statevector` on qubit `q`:
`np.random.choice` validates its `p` array and raises when an entry of
`[prob_0, 1 - prob_0]` is negative; otherwise the outcome is sampled, the
state is collapsed and renormalized, and the outcome is returned. -/
noncomputable def measureQ {n : ℕ} (ψ : QVec n) (q : ℕ) (r : ℝ) :
    Except String (ℕ × QVec n) :=
  if 0 ≤ prob0 ψ q ∧ prob0 ψ q ≤ 1 then
    Except.ok (measureOutcome ψ q r, collapseV ψ q (measureOutcome ψ q r))
  else
    Except.error "probabilities are not non-negative"

/-- A state that is consistent with outcome `o` on qubit `q`: every
amplitude whose `q`-th bit differs from `o` vanishes. -/
def Definite {n : ℕ} (ψ : QVec n) (q o : ℕ) : Prop :=
  ∀ i, bitAt n q i.val ≠ o → ψ i = 0

/-- The all-zero state (the degenerate unrenormalized case). -/
def IsZeroV {n : ℕ} (ψ : QVec n) : Prop := ∀ i, ψ i = 0

/-- A stream of uniform draws: every entry lies in `[0, 1)`. -/
def ValidStream (r : ℕ → ℝ) : Prop := ∀ k, 0 ≤ r k ∧ r k < 1

/-- The 2x2 unitary of a `SingleQubitGate`, as entries indexed by `Fin 2`. -/
def Mat2 := Fin 2 → Fin 2 → ℂ

/-- The 4x4 unitary of a `TwoQubitGate`, reshaped to `(2,2,2,2)` as in
`gate_matrix.reshape(2, 2, 2, 2)`: first two indices are the row pair,
last two the column pair. -/
def Mat4 := Fin 2 → Fin 2 → Fin 2 → Fin 2 → ℂ

/-- Fin-valued bit of qubit `q` in index `i`. -/
def fbit (n q : ℕ) (i : ℕ) : Fin 2 := ⟨bitAt n q i, Nat.mod_lt _ (by norm_num)⟩

/-- Model of `SingleQubitGate._apply_to_statevector`: the code runs
`np.einsum(gate, [qubit, n], state, indices, indices)` where `indices` is
`[0, …, n-1]` with entry `qubit` replaced by the label `n` — the state operand
and the output share every label, so the target axis of the state is tied to
the output axis, the gate's row label is summed alone, and the result is the
elementwise product of the state with the column sums of the gate at the
target bit (not the matrix action of the gate). -/
noncomputable def applySingle {n : ℕ} (U : Mat2) (q : ℕ) (ψ : QVec n) : QVec n :=
  fun i => (∑ a : Fin 2, U a (fbit n q i.val)) * ψ i

/-- Model of `TwoQubitGate._apply_to_statevector`: einsum with gate labels
`[q1, q2, n, n+1]` and state/output labels both equal to `indices` (entries
`q1 ↦ n`, `q2 ↦ n+1`).  For `q1 ≠ q2` the row labels `q1, q2` are summed
alone and the result multiplies each amplitude by the column sum of the gate
at the target bits; for `q1 = q2` the assignment `indices[q2] = n+1`
overwrites `indices[q1] = n`, the repeated gate label `q1 = q2` takes the
row diagonal and the label `n` is summed as a free gate column axis. -/
noncomputable def applyTwo {n : ℕ} (U : Mat4) (q1 q2 : ℕ) (ψ : QVec n) : QVec n :=
  if q1 = q2 then
    fun i => (∑ a : Fin 2, ∑ c : Fin 2, U a a c (fbit n q2 i.val)) * ψ i
  else
    fun i => (∑ a : Fin 2, ∑ b : Fin 2, U a b (fbit n q1 i.val) (fbit n q2 i.val)) * ψ i

/-- The Toffoli 8x8 matrix reshaped to `[2]*6`, as `Toffoli.matrix` builds it:
identity except that rows/columns `|110⟩` and `|111⟩` are swapped. -/
def toffoliM (a1 a2 a3 b1 b2 b3 : Fin 2) : ℂ :=
  if a1 = b1 ∧ a2 = b2 ∧ (if b1 = 1 ∧ b2 = 1 then a3 ≠ b3 else a3 = b3)
  then 1 else 0

/-- Model of `Toffoli.apply` on a statevector uses the same einsum pattern with gate
labels `qubits ++ [n, n+1, n+2]` and identical state/output labels, so again
each amplitude is multiplied by a column sum (assuming the three targets are
distinct, as the label bookkeeping otherwise collides). -/
noncomputable def applyToffoli {n : ℕ} (q1 q2 q3 : ℕ) (ψ : QVec n) : QVec n :=
  fun i => (∑ a1 : Fin 2, ∑ a2 : Fin 2, ∑ a3 : Fin 2,
    toffoliM a1 a2 a3 (fbit n q1 i.val) (fbit n q2 i.val) (fbit n q3 i.val)) * ψ i

/-- The gate variants of the source, each carrying the data its class stores:
the reshaped unitary for the 1- and 2-qubit base classes, nothing extra for
`Toffoli`, and the declared qubit count plus raw matrix for `CustomGate`
(whose matrix is `2 ^ k` by `2 ^ k`, indexed here by bare naturals). -/
inductive GateKind
  | single (U : Mat2)
  | twoQ (U : Mat4)
  | toffoli
  | custom (k : ℕ) (U : ℕ → ℕ → ℂ)

/-- The `num_qubits` attribute a `Gate` declares (1, 2, 3, or the custom `k`). -/
def GateKind.arity : GateKind → ℕ
  | .single _ => 1
  | .twoQ _ => 2
  | .toffoli => 3
  | .custom k _ => k

/-- A gate instance as stored in a circuit: its `name` attribute (used by the
stabilizer backend's Clifford check) and its class-specific data. -/
structure CGate where
  name : String
  kind : GateKind

/-- Model of `Gate.apply` on a statevector for each gate class.  Every class first
checks `len(qubits)` against its arity and raises a `ValueError` otherwise.
`CustomGate.apply` then computes `gate_matrix @ state` directly; numpy's
matrix product raises a `ValueError` when the `2 ^ k` by `2 ^ k` matrix does
not match the `2 ^ n` state (that is, whenever `k ≠ n`). -/
noncomputable def applyGate {n : ℕ} (g : CGate) (qubits : List ℤ) (ψ : QVec n) :
    Except String (QVec n) :=
  match g.kind with
  | .single U =>
    if qubits.length = 1 then
      Except.ok (applySingle U (qubits.headD 0).toNat ψ)
    else Except.error (g.name ++ " gate requires exactly 1 qubit")
  | .twoQ U =>
    match qubits with
    | [q1, q2] => Except.ok (applyTwo U q1.toNat q2.toNat ψ)
    | _ => Except.error (g.name ++ " gate requires exactly 2 qubits")
  | .toffoli =>
    match qubits with
    | [q1, q2, q3] => Except.ok (applyToffoli q1.toNat q2.toNat q3.toNat ψ)
    | _ => Except.error "Toffoli gate requires exactly 3 qubits"
  | .custom k U =>
    if qubits.length = k then
      if 2 ^ k = 2 ^ n then
        Except.ok (fun i => ∑ j, U i.val j.val * ψ j)
      else Except.error "matmul: dimension mismatch between gate matrix and state"
    else Except.error (g.name ++ " gate requires a qubit list matching its arity")

/-- Model of `Circuit`: qubit/classical-bit counts, the ordered gate list with the
qubit-index list of each application, and the ordered `(qubit, classical_bit)`
measurement requests.  Indices are integers, as in Python. -/
structure Circuit where
  numQubits : ℕ
  numClassicalBits : ℕ
  gates : List (CGate × List ℤ) := []
  measurements : List (ℤ × ℤ) := []

/-- Model of `Circuit.add_gate`: raise on the first qubit index outside
`[0, num_qubits)`, then raise when the qubit-list length differs from the
gate's declared arity, and only then append to `self.gates`.  The Python
method mutates `self` and the raise happens before the append, so the
model returns the unchanged circuit together with the error message. -/
def addGate (c : Circuit) (g : CGate) (qubits : List ℤ) :
    Circuit × Option String :=
  match qubits.find? (fun q => decide (q < 0 ∨ (c.numQubits : ℤ) ≤ q)) with
  | some q => (c, some ("Qubit index " ++ toString q ++ " out of range"))
  | none =>
    if qubits.length ≠ g.kind.arity then
      (c, some ("Gate " ++ g.name ++ " requires " ++ toString g.kind.arity
        ++ " qubits, got " ++ toString qubits.length))
    else
      ({ c with gates := c.gates ++ [(g, qubits)] }, none)

/-- Model of `Circuit.measure`: raise on an out-of-range qubit; auto-assign the
classical bit to `len(self.measurements)` when it is `None`, raise when a
supplied classical bit is outside `[0, num_classical_bits)`; only then
append to `self.measurements`. -/
def measureCB (c : Circuit) (qubit : ℤ) (classicalBit : Option ℤ) :
    Circuit × Option String :=
  if qubit < 0 ∨ (c.numQubits : ℤ) ≤ qubit then
    (c, some ("Qubit index " ++ toString qubit ++ " out of range"))
  else
    match classicalBit with
    | none =>
      ({ c with measurements := c.measurements ++ [(qubit, (c.measurements.length : ℤ))] },
        none)
    | some b =>
      if b < 0 ∨ (c.numClassicalBits : ℤ) ≤ b then
        (c, some ("Classical bit index " ++ toString b ++ " out of range"))
      else
        ({ c with measurements := c.measurements ++ [(qubit, b)] }, none)

/-- One shot of the measurement loop in `StatevectorBackend.execute`: measure
each `(qubit, classical_bit)` request in order, recording
`shot_measurements[str(classical_bit)] = outcome`; the per-shot dict is
modelled by its ordered assignment list.  `r` is the stream of uniform draws
and `k` the position of the next draw. -/
noncomputable def runShot {n : ℕ} (ψ : QVec n) :
    List (ℤ × ℤ) → (ℕ → ℝ) → ℕ → Except String (List (String × ℕ) × QVec n)
  | [], _, _ => Except.ok ([], ψ)
  | (q, cb) :: ms, r, k => do
    let (o, ψ1) ← measureQ ψ q.toNat (r k)
    let (L, σ) ← runShot ψ1 ms r (k + 1)
    Except.ok ((toString cb, o) :: L, σ)

/-- The `for shot in range(shots)` loop: shot 0 measures the working state in
place; every later shot resets the working state to a copy of the current
(already collapsed) `quantum_state.state` and measures again.  Functionally
the shots are chained: each starts from the state the previous shot left. -/
noncomputable def runShots {n : ℕ} (ψ : QVec n) (ms : List (ℤ × ℤ)) (r : ℕ → ℝ) (k : ℕ) :
    (shots : ℕ) → Except String (List (List (String × ℕ)) × QVec n)
  | 0 => Except.ok ([], ψ)
  | s + 1 => do
    let (L, σ) ← runShot ψ ms r k
    let (Ls, σ2) ← runShots σ ms r (k + ms.length) s
    Except.ok (L :: Ls, σ2)

/-- The execution metadata dict assembled by the backends (the fields the
claims touch: `backend`, the stabilizer `note`, and the gate/qubit counts;
`circuit_depth` is omitted as no claim mentions its value). -/
structure Metadata where
  backend : String
  note : Option String := none
  numQubits : ℕ
  numGates : ℕ

/-- Model of `ExecutionResult`: final state, per-shot measurement dicts (ordered
assignment lists), metadata. -/
structure SVResult (n : ℕ) where
  state : QVec n
  measurements : List (List (String × ℕ))
  metadata : Metadata

/-- Fold of the gate loop `for gate, qubits in circuit.gates`. -/
noncomputable def applyGates {n : ℕ} :
    List (CGate × List ℤ) → QVec n → Except String (QVec n)
  | [], ψ => Except.ok ψ
  | (g, qs) :: rest, ψ => do
    let ψ1 ← applyGate g qs ψ
    applyGates rest ψ1

/-- Model of `StatevectorBackend.execute`: initialize to `|0…0⟩` (or the caller's
initial statevector), fold the gate list, run the shot loop, replace the
measurement list by `shots` empty dicts when the circuit requests no
measurements, and package state, measurements and metadata.  `r` models the
process-wide numpy RNG as a stream of uniform draws (a backend seed makes
the stream restart at each `np.random.seed` call, which is a particular
choice of stream, so the model quantifies over all streams). -/
noncomputable def svExecute (c : Circuit) (initial : Option (QVec c.numQubits))
    (shots : ℕ) (r : ℕ → ℝ) : Except String (SVResult c.numQubits) := do
  let σ ← applyGates c.gates (initial.getD (zeroVec c.numQubits))
  let (Ls, σf) ← runShots σ c.measurements r 0 shots
  let meas := if c.measurements.isEmpty then List.replicate shots [] else Ls
  Except.ok ⟨σf, meas,
    { backend := "StatevectorBackend", numQubits := c.numQubits,
      numGates := c.gates.length }⟩

/-- The Clifford gate-name set of `StabilizerBackend.can_execute`. -/
def cliffordNames : List String := ["H", "S", "CNOT", "CZ", "X", "Y", "Z", "SWAP"]

/-- The message built for the first non-Clifford gate found. -/
def nonCliffordMsg (name : String) : String :=
  "Non-Clifford gate " ++ name ++ " detected. Stabilizer backend only supports Clifford gates."

/-- Model of `StabilizerBackend.can_execute`: scan the gate list in order and report
the first gate whose name is not in the Clifford set; otherwise
`(True, None)`.  A pure function — it never raises. -/
def stabCanExecute (c : Circuit) : Bool × Option String :=
  match c.gates.find? (fun g => !(cliffordNames.contains g.1.name)) with
  | some g => (false, some (nonCliffordMsg g.1.name))
  | none => (true, none)

/-- Model of `StabilizerBackend.execute`: validate with `can_execute` and raise when it
fails; otherwise delegate to a `StatevectorBackend` constructed with the same
seed (the same draw stream here) and the same arguments, then overwrite the
result's `backend` metadata and add the fallback note. -/
noncomputable def stabExecute (c : Circuit) (initial : Option (QVec c.numQubits))
    (shots : ℕ) (r : ℕ → ℝ) : Except String (SVResult c.numQubits) :=
  match stabCanExecute c with
  | (false, reason) =>
    Except.error ("Cannot execute circuit: " ++ reason.getD "None")
  | (true, _) =>
    (svExecute c initial shots r).map fun res =>
      { res with metadata :=
        { res.metadata with
            backend := "StabilizerBackend"
            note := some "Using statevector simulation (full stabilizer tableau not yet implemented)" } }

/-- The Hadamard matrix `(1/sqrt 2) * [[1, 1], [1, -1]]` of `H.matrix`. -/
noncomputable def hMat : Mat2 := fun a b =>
  ((Real.sqrt 2)⁻¹ : ℝ) * (if a = 1 ∧ b = 1 then -1 else 1)

/-- The Pauli-X matrix `[[0, 1], [1, 0]]` of `X.matrix`. -/
def xMat : Mat2 := fun a b => if a = b then 0 else 1

/-- The T matrix `[[1, 0], [0, exp(i*pi/4)]]` of `T.matrix`. -/
noncomputable def tMat : Mat2 := fun a b =>
  if a = 0 ∧ b = 0 then 1
  else if a = 1 ∧ b = 1 then Complex.exp (Complex.I * (Real.pi / 4)) else 0

/-- The CNOT matrix of `CNOT.matrix`, reshaped to `(2,2,2,2)`: entry at row
pair `(c, t)` and column pair `(cp, tp)` is 1 exactly when `c = cp` and
`t = tp + cp (mod 2)`. -/
def cnotMat : Mat4 := fun c t cp tp =>
  if c = cp ∧ t.val = (tp.val + cp.val) % 2 then 1 else 0

/-- A square numpy array of complex entries: its dimension and its entries
(entries are total functions; only indices below `dim` are meaningful). -/
structure NMat where
  dim : ℕ
  entry : ℕ → ℕ → ℂ

/-- Model of `np.eye(d, dtype=complex)`. -/
def NMat.eye (d : ℕ) : NMat :=
  ⟨d, fun i j => if i = j ∧ i < d then 1 else 0⟩

/-- Model of `np.kron(A, B)`: entry `(i, j)` is `A[i / dB, j / dB] * B[i % dB, j % dB]`. -/
def NMat.kron (A B : NMat) : NMat :=
  ⟨A.dim * B.dim, fun i j => A.entry (i / B.dim) (j / B.dim) * B.entry (i % B.dim) (j % B.dim)⟩

/-- Matrix product `A @ B`; numpy raises a `ValueError` when the inner
dimensions differ. -/
noncomputable def NMat.matmul (A B : NMat) : Except String NMat :=
  if A.dim = B.dim then
    Except.ok ⟨A.dim, fun i j => ∑ k ∈ Finset.range A.dim, A.entry i k * B.entry k j⟩
  else Except.error "matmul: dimension mismatch"

/-- Conjugate transpose `K.conj().T`. -/
def NMat.dagger (A : NMat) : NMat :=
  ⟨A.dim, fun i j => (starRingEnd ℂ) (A.entry j i)⟩

/-- Elementwise sum `A + B` (used by `result += …`); numpy raises when the
shapes differ. -/
def NMat.add (A B : NMat) : Except String NMat :=
  if A.dim = B.dim then Except.ok ⟨A.dim, fun i j => A.entry i j + B.entry i j⟩
  else Except.error "operands could not be broadcast together"

/-- Model of `tensor_kraus_operators`: for each single-qubit Kraus operator the code
starts the accumulator at `np.eye(2)` and then, for every qubit `q` of the
system, Kronecker-multiplies by `K` when `q == target_qubit` and by
`np.eye(2)` otherwise — the accumulator therefore picks up `n + 1` binary
factors in total. -/
def tensorKrausOperators (krausOps : List NMat) (numQubits targetQubit : ℕ) :
    List NMat :=
  krausOps.map fun K =>
    (List.range numQubits).foldl
      (fun acc q => acc.kron (if q = targetQubit then K else NMat.eye 2))
      (NMat.eye 2)

/-- Model of `apply_kraus_operators`: start from `np.zeros_like(rho)` and accumulate
`K @ rho @ K.conj().T` over the Kraus list. -/
noncomputable def applyKrausOperators (rho : NMat) (krausOps : List NMat) :
    Except String NMat :=
  krausOps.foldlM
    (fun acc K => do
      let t1 ← K.matmul rho
      let t2 ← t1.matmul K.dagger
      acc.add t2)
    (⟨rho.dim, fun _ _ => 0⟩ : NMat)

/-- Scalar multiple of a numpy matrix. -/
def NMat.smul (z : ℂ) (A : NMat) : NMat := ⟨A.dim, fun i j => z * A.entry i j⟩

/-- The Pauli-X matrix as a 2x2 numpy array. -/
def xN : NMat := ⟨2, fun i j => if (i, j) = (0, 1) ∨ (i, j) = (1, 0) then 1 else 0⟩

/-- The Pauli-Y matrix as a 2x2 numpy array. -/
def yN : NMat := ⟨2, fun i j =>
  if (i, j) = (0, 1) then -Complex.I else if (i, j) = (1, 0) then Complex.I else 0⟩

/-- The Pauli-Z matrix as a 2x2 numpy array. -/
def zN : NMat := ⟨2, fun i j =>
  if (i, j) = (0, 0) then 1 else if (i, j) = (1, 1) then -1 else 0⟩

/-- Model of `DepolarizingChannel.__init__`: raise `ValueError` unless `0 <= p <= 1`,
else store the parameter. -/
noncomputable def depolarizingInit (p : ℝ) : Except String ℝ :=
  if 0 ≤ p ∧ p ≤ 1 then Except.ok p
  else Except.error "Error probability p must be in the unit interval"

/-- Model of `DepolarizingChannel.kraus_operators`: raises only when `num_qubits` is
not 1; no parameter-range check happens here. -/
noncomputable def depolarizingKraus (p : ℝ) (numQubits : ℕ) :
    Except String (List NMat) :=
  if numQubits = 1 then
    Except.ok [NMat.smul (Real.sqrt (1 - p) : ℝ) (NMat.eye 2),
      NMat.smul (Real.sqrt (p / 3) : ℝ) xN,
      NMat.smul (Real.sqrt (p / 3) : ℝ) yN,
      NMat.smul (Real.sqrt (p / 3) : ℝ) zN]
  else Except.error "Depolarizing channel is single-qubit only"

/-- Model of `AmplitudeDampingChannel.__init__`: raise unless `0 <= gamma <= 1`. -/
noncomputable def amplitudeDampingInit (gamma : ℝ) : Except String ℝ :=
  if 0 ≤ gamma ∧ gamma ≤ 1 then Except.ok gamma
  else Except.error "Damping parameter gamma must be in the unit interval"

/-- Model of `AmplitudeDampingChannel.kraus_operators`. -/
noncomputable def amplitudeDampingKraus (gamma : ℝ) (numQubits : ℕ) :
    Except String (List NMat) :=
  if numQubits = 1 then
    Except.ok [⟨2, fun i j =>
        if (i, j) = (0, 0) then 1
        else if (i, j) = (1, 1) then (Real.sqrt (1 - gamma) : ℝ) else 0⟩,
      ⟨2, fun i j => if (i, j) = (0, 1) then (Real.sqrt gamma : ℝ) else 0⟩]
  else Except.error "Amplitude damping channel is single-qubit only"

/-- Model of `PhaseDampingChannel.__init__`: raise unless `0 <= gamma <= 1`. -/
noncomputable def phaseDampingInit (gamma : ℝ) : Except String ℝ :=
  if 0 ≤ gamma ∧ gamma ≤ 1 then Except.ok gamma
  else Except.error "Damping parameter gamma must be in the unit interval"

/-- Model of `PhaseDampingChannel.kraus_operators`. -/
noncomputable def phaseDampingKraus (gamma : ℝ) (numQubits : ℕ) :
    Except String (List NMat) :=
  if numQubits = 1 then
    Except.ok [NMat.smul (Real.sqrt (1 - gamma) : ℝ) (NMat.eye 2),
      NMat.smul (Real.sqrt gamma : ℝ) ⟨2, fun i j => if (i, j) = (0, 0) then 1 else 0⟩,
      NMat.smul (Real.sqrt gamma : ℝ) ⟨2, fun i j => if (i, j) = (1, 1) then 1 else 0⟩]
  else Except.error "Phase damping channel is single-qubit only"

/-- Model of `BitFlipChannel.__init__`: raise unless `0 <= p <= 1`. -/
noncomputable def bitFlipInit (p : ℝ) : Except String ℝ :=
  if 0 ≤ p ∧ p ≤ 1 then Except.ok p
  else Except.error "Error probability p must be in the unit interval"

/-- Model of `BitFlipChannel.kraus_operators`. -/
noncomputable def bitFlipKraus (p : ℝ) (numQubits : ℕ) :
    Except String (List NMat) :=
  if numQubits = 1 then
    Except.ok [NMat.smul (Real.sqrt (1 - p) : ℝ) (NMat.eye 2),
      NMat.smul (Real.sqrt p : ℝ) xN]
  else Except.error "Bit-flip channel is single-qubit only"

/-- Model of `PhaseFlipChannel.__init__`: raise unless `0 <= p <= 1`. -/
noncomputable def phaseFlipInit (p : ℝ) : Except String ℝ :=
  if 0 ≤ p ∧ p ≤ 1 then Except.ok p
  else Except.error "Error probability p must be in the unit interval"

/-- Model of `PhaseFlipChannel.kraus_operators`. -/
noncomputable def phaseFlipKraus (p : ℝ) (numQubits : ℕ) :
    Except String (List NMat) :=
  if numQubits = 1 then
    Except.ok [NMat.smul (Real.sqrt (1 - p) : ℝ) (NMat.eye 2),
      NMat.smul (Real.sqrt p : ℝ) zN]
  else Except.error "Phase-flip channel is single-qubit only"

/-- Model of `NoiseChannel.apply`: fetch the channel's single-qubit Kraus operators,
embed them with `tensor_kraus_operators`, and apply the Kraus sum to `rho`. -/
noncomputable def noiseChannelApply (krausFn : ℕ → Except String (List NMat))
    (rho : NMat) (qubit numQubits : ℕ) : Except String NMat := do
  let ops ← krausFn 1
  applyKrausOperators rho (tensorKrausOperators ops numQubits qubit)

/-- Model of `QuantumState.to_density_matrix`: `rho = np.outer(psi, psi.conj())`. -/
def outerDM {n : ℕ} (ψ : QVec n) : DMat n :=
  fun i j => ψ i * (starRingEnd ℂ) (ψ j)

/-- Model of `np.trace(rho @ rho)` as computed by `to_statevector`. -/
noncomputable def purity {n : ℕ} (rho : DMat n) : ℂ :=
  ∑ i, ∑ j, rho i j * rho j i

/-- The purity test `np.isclose(purity, 1.0, atol=1e-6)`: `np.isclose` keeps
its default `rtol = 1e-5`, so the accepted band is
`|purity - 1| <= 1e-6 + 1e-5 * |1.0|`. -/
noncomputable def purityClose {n : ℕ} (rho : DMat n) : Prop :=
  Complex.abs (purity rho - 1) ≤ 1 / 1000000 + 1 / 100000 * Complex.abs 1

noncomputable instance {n : ℕ} (rho : DMat n) : Decidable (purityClose rho) :=
  Classical.propDecidable _

/-- Model of `QuantumState.to_statevector` on a density-matrix state: raise unless the
purity is `np.isclose` to 1, else return the `np.linalg.eigh` eigenvector of
the largest eigenvalue.  The numpy eigensolver is modelled by its contract:
`eigvec` stands for the unit eigenvector it returns, passed in explicitly
and constrained by hypotheses in the theorems below. -/
noncomputable def toStatevector {n : ℕ} (rho : DMat n) (eigvec : QVec n) :
    Except String (QVec n) :=
  if purityClose rho then Except.ok eigvec
  else Except.error "Cannot extract statevector from mixed state"

/-- Last-assignment lookup in a Python dict modelled as its ordered
assignment list (later assignments to a key overwrite earlier ones). -/
def pyGet (m : List (String × ℕ)) (k : String) : ℕ :=
  ((m.reverse.find? (fun p => p.1 == k)).map Prod.snd).getD 0

/-- Lexicographic comparison of character lists by code point — the order
Python uses to compare strings. -/
def charsLt : List Char → List Char → Bool
  | [], [] => false
  | [], _ :: _ => true
  | _ :: _, [] => false
  | a :: as, b :: bs =>
    if a.toNat < b.toNat then true
    else if b.toNat < a.toNat then false
    else charsLt as bs

/-- Python string `<`. -/
def pyStrLt (s t : String) : Bool := charsLt s.data t.data

/-- Insert a string into an ascending list (Python `sorted` on the key
strings compares code points). -/
def insertStr (s : String) : List String → List String
  | [] => [s]
  | t :: ts => if pyStrLt s t then s :: t :: ts else t :: insertStr s ts

/-- Ascending sort of a list of strings. -/
def sortStrings (l : List String) : List String :=
  l.foldr insertStr []

/-- The key set of a shot dict, sorted as `sorted(measurement.keys())` sorts
it: lexicographically as strings. -/
def sortedKeys (m : List (String × ℕ)) : List String :=
  sortStrings (m.map Prod.fst).dedup

/-- The bitstring `ExecutionResult.get_counts` builds for one shot:
`"".join(str(measurement[i]) for i in sorted(measurement.keys()))`. -/
def bitstringOf (m : List (String × ℕ)) : String :=
  String.join ((sortedKeys m).map (fun k => toString (pyGet m k)))

/-- One `counts[bitstring] = counts.get(bitstring, 0) + 1` update on the
counts dict (insertion-ordered association list). -/
def bump : List (String × ℕ) → String → List (String × ℕ)
  | [], s => [(s, 1)]
  | (k, v) :: rest, s =>
    if k == s then (k, v + 1) :: rest else (k, v) :: bump rest s

/-- Model of `ExecutionResult.get_counts`: fold the per-shot dicts into the histogram. -/
def getCounts (shots : List (List (String × ℕ))) : List (String × ℕ) :=
  shots.foldl (fun acc m => bump acc (bitstringOf m)) []

/-- Count lookup in the histogram (0 when the key is absent). -/
def countOf (counts : List (String × ℕ)) (k : String) : ℕ :=
  ((counts.find? (fun p => p.1 == k)).map Prod.snd).getD 0

/-- Modelled from the spec: the genuine tensor contraction of a single-qubit
unitary with the state tensor at the target qubit axis — the new amplitude at
index `i` sums `U[bit_q i, b] * psi[j]` over the indices `j` that agree with
`i` on every non-target qubit.  Used only to compare the code's einsum
result against the specified contraction. -/
noncomputable def trueApplySingle {n : ℕ} (U : Mat2) (q : ℕ) (ψ : QVec n) : QVec n :=
  fun i => ∑ j,
    if ∀ p ∈ List.range n, p ≠ q → bitAt n p i.val = bitAt n p j.val
    then U (fbit n q i.val) (fbit n q j.val) * ψ j else 0

/-- The `H()` gate instance: name "H", single-qubit, Hadamard matrix. -/
noncomputable def hGate : CGate := ⟨"H", .single hMat⟩

/-- The `CNOT()` gate instance. -/
def cnotGate : CGate := ⟨"CNOT", .twoQ cnotMat⟩

/-- The `T()` gate instance (non-Clifford). -/
noncomputable def tGate : CGate := ⟨"T", .single tMat⟩

/-- The metadata rewrite `StabilizerBackend.execute` performs on the
delegated result. -/
def stabRelabel {n : ℕ} (res : SVResult n) : SVResult n :=
  { res with metadata :=
    { res.metadata with
        backend := "StabilizerBackend"
        note := some "Using statevector simulation (full stabilizer tableau not yet implemented)" } }

/-- The density matrix `|0><0|` of a single qubit, as a 2x2 numpy array. -/
def rho0 : NMat := ⟨2, fun i j => if i = 0 ∧ j = 0 then 1 else 0⟩

/-- The 2-qubit Bell-scenario circuit: H on qubit 0, then CNOT with control 0
and target 1, no measurements. -/
noncomputable def bellCircuit : Circuit := ⟨2, 0, [(hGate, [0]), (cnotGate, [0, 1])], []⟩

/-- The state the code's einsum actually produces for the Bell circuit:
amplitude `sqrt 2` at index 0, zero elsewhere. -/
noncomputable def bellBroken : QVec 2 :=
  fun i => if i.val = 0 then ((Real.sqrt 2 : ℝ) : ℂ) else 0

/-- A 1-qubit diagonal density matrix with eigenvalues `1 - 2e-6` and `2e-6`:
its purity differs from 1 by about `4e-6`, inside `np.isclose`'s default
band but outside a bare `1e-6` tolerance. -/
noncomputable def rhoMix : DMat 1 := fun i j =>
  if i = 0 ∧ j = 0 then (((999998 : ℝ) / 1000000 : ℝ) : ℂ)
  else if i = 1 ∧ j = 1 then (((2 : ℝ) / 1000000 : ℝ) : ℂ) else 0

/-- A 1-qubit circuit with no gates measuring qubit 0 into classical bit 0,
used to witness the multi-shot behavior. -/
def cW : Circuit := ⟨1, 1, [], [((0 : ℤ), (0 : ℤ))]⟩

/-- The result of executing `cW` for two shots. -/
noncomputable def resW : SVResult cW.numQubits :=
  ⟨zeroVec 1, [[(toString (0 : ℤ), 0)], [(toString (0 : ℤ), 0)]],
    { backend := "StatevectorBackend", numQubits := 1, numGates := 0 }⟩

/-- C9: each of the five channel families checks its probability/damping
parameter at construction — `__init__` succeeds exactly when the parameter
lies in `[0, 1]` — while the application-time `kraus_operators(num_qubits=1)`
call succeeds for every parameter value, in or out of range. -/
theorem claim9_parameter_check_at_construction :
    ((∀ p : ℝ, depolarizingInit p = Except.ok p ↔ (0 ≤ p ∧ p ≤ 1)) ∧
     (∀ g : ℝ, amplitudeDampingInit g = Except.ok g ↔ (0 ≤ g ∧ g ≤ 1)) ∧
     (∀ g : ℝ, phaseDampingInit g = Except.ok g ↔ (0 ≤ g ∧ g ≤ 1)) ∧
     (∀ p : ℝ, bitFlipInit p = Except.ok p ↔ (0 ≤ p ∧ p ≤ 1)) ∧
     (∀ p : ℝ, phaseFlipInit p = Except.ok p ↔ (0 ≤ p ∧ p ≤ 1))) ∧
    ((∀ p : ℝ, (depolarizingKraus p 1).isOk = true) ∧
     (∀ g : ℝ, (amplitudeDampingKraus g 1).isOk = true) ∧
     (∀ g : ℝ, (phaseDampingKraus g 1).isOk = true) ∧
     (∀ p : ℝ, (bitFlipKraus p 1).isOk = true) ∧
     (∀ p : ℝ, (phaseFlipKraus p 1).isOk = true)) := by
  constructor
  · refine ⟨?_, ?_, ?_, ?_, ?_⟩ <;>
    · intro p
      constructor
      · intro hv
        by_contra hp
        simp only [depolarizingInit, amplitudeDampingInit, phaseDampingInit,
          bitFlipInit, phaseFlipInit, if_neg hp] at hv
        exact absurd hv (by simp)
      · intro hp
        simp only [depolarizingInit, amplitudeDampingInit,
          phaseDampingInit, bitFlipInit, phaseFlipInit, if_pos hp]
  · refine ⟨?_, ?_, ?_, ?_, ?_⟩ <;>
    · intro p
      rfl

/-- Witness for C9 at concrete parameters: constructing a depolarizing
channel with `p = 1/2` succeeds, and its Kraus operators are available even
for the out-of-range parameter `p = 2`. -/
theorem claim9_witness :
    depolarizingInit (1 / 2) = Except.ok (1 / 2) ∧
    (depolarizingKraus 2 1).isOk = true :=
  ⟨(claim9_parameter_check_at_construction.1.1 (1 / 2)).mpr (by norm_num),
   claim9_parameter_check_at_construction.2.1 2⟩

/-- C10: `Circuit.add_gate` reports an error exactly when some qubit index is
out of range or the qubit-list length differs from the gate's arity, and on
error the gate list is unchanged (the raise precedes the append); likewise
`Circuit.measure` errors exactly on an out-of-range qubit or explicit
classical bit and then leaves the measurement list unchanged.  On success the
item is appended. -/
theorem claim10_circuit_mutation_atomic :
    (∀ (c : Circuit) (g : CGate) (qs : List ℤ),
      (addGate c g qs).2.isSome ↔
        ((∃ q ∈ qs, q < 0 ∨ (c.numQubits : ℤ) ≤ q) ∨ qs.length ≠ g.kind.arity)) ∧
    (∀ (c : Circuit) (g : CGate) (qs : List ℤ),
      (addGate c g qs).2.isSome → (addGate c g qs).1 = c) ∧
    (∀ (c : Circuit) (g : CGate) (qs : List ℤ),
      (addGate c g qs).2 = none →
        (addGate c g qs).1.gates = c.gates ++ [(g, qs)]) ∧
    (∀ (c : Circuit) (q : ℤ) (cb : Option ℤ),
      (measureCB c q cb).2.isSome ↔
        (q < 0 ∨ (c.numQubits : ℤ) ≤ q ∨
          ∃ b, cb = some b ∧ (b < 0 ∨ (c.numClassicalBits : ℤ) ≤ b))) ∧
    (∀ (c : Circuit) (q : ℤ) (cb : Option ℤ),
      (measureCB c q cb).2.isSome → (measureCB c q cb).1 = c) := by
  refine ⟨?_, ?_, ?_, ?_, ?_⟩
  · intro c g qs
    unfold addGate
    rcases hf : qs.find? (fun q => decide (q < 0 ∨ (c.numQubits : ℤ) ≤ q)) with _ | q
    · have hnone : ∀ q ∈ qs, ¬(q < 0 ∨ (c.numQubits : ℤ) ≤ q) := by
        intro q hq
        have := List.find?_eq_none.mp hf q hq
        simpa using this
      by_cases hlen : qs.length = g.kind.arity
      · simp only [hlen, ne_eq, not_true_eq_false, if_neg (by trivial : ¬False),
          if_false, Option.isSome_none, false_iff, not_or, Bool.false_eq_true,
          not_exists, not_and, not_lt, not_le]
        refine ⟨?_, by simp [hlen]⟩
        intro x hx
        have := hnone x hx
        push_neg at this
        exact this
      · simp [hlen, hnone]
    · have hq : q ∈ qs ∧ (q < 0 ∨ (c.numQubits : ℤ) ≤ q) :=
        ⟨List.mem_of_find?_eq_some hf, by simpa using List.find?_some hf⟩
      simp only [Option.isSome_some, true_iff]
      exact Or.inl ⟨q, hq.1, hq.2⟩
  · intro c g qs h
    unfold addGate at h ⊢
    rcases hf : qs.find? (fun q => decide (q < 0 ∨ (c.numQubits : ℤ) ≤ q)) with _ | q
    · rw [hf] at h
      by_cases hlen : qs.length ≠ g.kind.arity
      · simp [hlen]
      · simp [hlen] at h
    · rfl
  · intro c g qs h
    unfold addGate at h ⊢
    rcases hf : qs.find? (fun q => decide (q < 0 ∨ (c.numQubits : ℤ) ≤ q)) with _ | q
    · rw [hf] at h
      by_cases hlen : qs.length ≠ g.kind.arity
      · simp [hlen] at h
      · simp [hlen]
    · rw [hf] at h
      simp at h
  · intro c q cb
    rcases cb with _ | b <;> unfold measureCB
    · by_cases hq : q < 0 ∨ (c.numQubits : ℤ) ≤ q
      · simp only [if_pos hq, Option.isSome_some, true_iff]
        tauto
      · push_neg at hq
        simp only [if_neg (by push_neg; exact hq : ¬(q < 0 ∨ (c.numQubits : ℤ) ≤ q)),
          Option.isSome_none, Bool.false_eq_true, false_iff]
        rintro (h | h | ⟨b, hb, _⟩)
        · omega
        · omega
        · exact Option.noConfusion hb
    · by_cases hq : q < 0 ∨ (c.numQubits : ℤ) ≤ q
      · simp only [if_pos hq, Option.isSome_some, true_iff]
        tauto
      · push_neg at hq
        rw [if_neg (by push_neg; exact hq : ¬(q < 0 ∨ (c.numQubits : ℤ) ≤ q))]
        by_cases hb : b < 0 ∨ (c.numClassicalBits : ℤ) ≤ b
        · simp only [if_pos hb, Option.isSome_some, true_iff]
          exact Or.inr (Or.inr ⟨b, rfl, hb⟩)
        · simp only [if_neg hb, Option.isSome_none, Bool.false_eq_true, false_iff]
          rintro (h | h | ⟨b2, hb2, hbad⟩)
          · omega
          · omega
          · cases hb2
            exact hb hbad
  · intro c q cb h
    rcases cb with _ | b <;> unfold measureCB at h ⊢ <;>
      by_cases hq : q < 0 ∨ (c.numQubits : ℤ) ≤ q
    · simp [hq]
    · simp [hq] at h
    · simp [hq]
    · by_cases hb : b < 0 ∨ (c.numClassicalBits : ℤ) ≤ b
      · simp [hq, hb]
      · simp [hq, hb] at h

/-- Witness for C10: adding an X gate on the negative qubit index `-1` to a
fresh 1-qubit circuit reports an error and leaves the circuit unchanged. -/
theorem claim10_witness :
    (addGate ⟨1, 0, [], []⟩ ⟨"X", .single xMat⟩ [(-1 : ℤ)]).1 = ⟨1, 0, [], []⟩ :=
  claim10_circuit_mutation_atomic.2.1 ⟨1, 0, [], []⟩ ⟨"X", .single xMat⟩ [(-1 : ℤ)]
    ((claim10_circuit_mutation_atomic.1 ⟨1, 0, [], []⟩ ⟨"X", .single xMat⟩ [(-1 : ℤ)]).mpr
      (Or.inl ⟨-1, by simp, Or.inl (by norm_num)⟩))

theorem countOf_nil (s : String) : countOf [] s = 0 := rfl

theorem countOf_cons (k : String) (v : ℕ) (rest : List (String × ℕ)) (s : String) :
    countOf ((k, v) :: rest) s = if k = s then v else countOf rest s := by
  unfold countOf
  by_cases h : k = s
  · rw [List.find?_cons_of_pos _ (by simp [h])]
    simp [h]
  · rw [List.find?_cons_of_neg _ (by simp [h])]
    simp [h]

theorem countOf_bump (acc : List (String × ℕ)) (s0 s : String) :
    countOf (bump acc s0) s = countOf acc s + (if s0 = s then 1 else 0) := by
  induction acc with
  | nil =>
    by_cases h : s0 = s <;>
      simp [bump, countOf_cons, countOf_nil, h]
  | cons kv rest ih =>
    obtain ⟨k, v⟩ := kv
    by_cases hk0 : k = s0
    · subst hk0
      rw [show bump ((k, v) :: rest) k = (k, v + 1) :: rest from by simp [bump]]
      by_cases hs : k = s
      · subst hs
        simp [countOf_cons]
      · simp [countOf_cons, hs]
    · rw [show bump ((k, v) :: rest) s0 = (k, v) :: bump rest s0 from by
        simp [bump, hk0]]
      by_cases hs : k = s
      · subst hs
        have hs0 : ¬ s0 = k := fun h => hk0 h.symm
        simp [countOf_cons, hs0]
      · simp [countOf_cons, hs, ih]

theorem countOf_getCounts_aux (shots : List (List (String × ℕ)))
    (acc : List (String × ℕ)) (s : String) :
    countOf (shots.foldl (fun a m => bump a (bitstringOf m)) acc) s
      = countOf acc s + shots.countP (fun m => bitstringOf m == s) := by
  induction shots generalizing acc with
  | nil => simp
  | cons m rest ih =>
    simp only [List.foldl_cons, ih, countOf_bump, List.countP_cons, beq_iff_eq]
    by_cases h : bitstringOf m = s
    · simp [h]
      omega
    · simp [h]

/-- C4 (corrected): the histogram key order is not the ascending numeric
classical-bit order the claim describes.  A shot with outcomes 0, 1, 0 on
classical bits 0, 2 and 10 produces the bitstring "001" — the key "10" sorts
lexicographically before "2" — whereas the claim's numeric order would give
"010". -/
theorem claim4_counterexample :
    getCounts [[("0", 0), ("2", 1), ("10", 0)]] = [("001", 1)] ∧
    ("001" : String) ≠ "010" := ⟨by decide, by decide⟩

/-- C4 (amended): `get_counts` groups the per-shot dicts into a histogram
whose keys are the bitstrings obtained by concatenating each shot's outcomes
ordered by ascending lexicographic (string) order of the classical-bit keys
— which agrees with numeric order only while all indices have equally many
digits — and each bitstring's count equals the number of shots producing
that bitstring. -/
theorem claim4_lexicographic_histogram :
    (∀ (shots : List (List (String × ℕ))) (s : String),
      countOf (getCounts shots) s = shots.countP (fun m => bitstringOf m == s)) ∧
    bitstringOf [("0", 0), ("2", 1), ("10", 0)] = "001" := by
  constructor
  · intro shots s
    have h := countOf_getCounts_aux shots [] s
    simpa [getCounts, countOf_nil] using h
  · decide

/-- C6: a circuit containing a gate whose name is outside the Clifford set
makes `can_execute` return false with a reason naming an offending gate
(`can_execute` is a pure function, so it cannot raise), and `execute` then
raises; a circuit of Clifford-named gates makes `execute` delegate to
statevector execution with the same seed stream and arguments, relabelling
the metadata backend as the stabilizer path. -/
theorem claim6_stabilizer_validate_then_delegate :
    (∀ c : Circuit, (∃ p ∈ c.gates, ¬ cliffordNames.contains p.1.name) →
      (stabCanExecute c).1 = false ∧
      (∃ p ∈ c.gates, ¬ cliffordNames.contains p.1.name ∧
        (stabCanExecute c).2 = some (nonCliffordMsg p.1.name)) ∧
      ∀ (initial : Option (QVec c.numQubits)) (shots : ℕ) (r : ℕ → ℝ),
        ∃ e, stabExecute c initial shots r = Except.error e) ∧
    (∀ (c : Circuit) (initial : Option (QVec c.numQubits)) (shots : ℕ) (r : ℕ → ℝ),
      (∀ p ∈ c.gates, cliffordNames.contains p.1.name) →
      stabExecute c initial shots r = (svExecute c initial shots r).map stabRelabel ∧
      ∀ res, stabExecute c initial shots r = Except.ok res →
        res.metadata.backend = "StabilizerBackend") := by
  constructor
  · intro c h
    obtain ⟨p, hp, hnc⟩ := h
    have hsome : (c.gates.find? (fun g => !(cliffordNames.contains g.1.name))).isSome :=
      List.find?_isSome.mpr ⟨p, hp, by simpa using hnc⟩
    obtain ⟨g2, hg2⟩ := Option.isSome_iff_exists.mp hsome
    have hmem := List.mem_of_find?_eq_some hg2
    have hpred : ¬ cliffordNames.contains g2.1.name := by
      simpa using List.find?_some hg2
    refine ⟨?_, ⟨g2, hmem, hpred, ?_⟩, ?_⟩
    · unfold stabCanExecute
      rw [hg2]
    · unfold stabCanExecute
      rw [hg2]
    · intro initial shots r
      refine ⟨"Cannot execute circuit: " ++ nonCliffordMsg g2.1.name, ?_⟩
      unfold stabExecute stabCanExecute
      rw [hg2]
      rfl
  · intro c initial shots r h
    have hnone : c.gates.find? (fun g => !(cliffordNames.contains g.1.name)) = none :=
      List.find?_eq_none.mpr (fun x hx => by simpa using h x hx)
    have hmap : stabExecute c initial shots r
        = (svExecute c initial shots r).map stabRelabel := by
      unfold stabExecute stabCanExecute
      rw [hnone]
      rfl
    refine ⟨hmap, ?_⟩
    intro res hres
    rw [hmap] at hres
    cases hsv : svExecute c initial shots r with
    | error e =>
      rw [hsv] at hres
      exact absurd hres (by simp [Except.map])
    | ok r0 =>
      rw [hsv] at hres
      have : stabRelabel r0 = res := by
        simpa [Except.map] using hres
      rw [← this]
      rfl

/-- Witness for C6: a 1-qubit circuit holding a T gate fails the Clifford
check, and a 1-qubit circuit holding only an H gate is delegated to the
statevector backend with relabelled metadata. -/
theorem claim6_witness :
    (stabCanExecute ⟨1, 0, [(tGate, [0])], []⟩).1 = false ∧
    stabExecute ⟨1, 0, [(hGate, [0])], []⟩ none 0 (fun _ => 0)
      = (svExecute ⟨1, 0, [(hGate, [0])], []⟩ none 0 (fun _ => 0)).map stabRelabel :=
  ⟨(claim6_stabilizer_validate_then_delegate.1 ⟨1, 0, [(tGate, [0])], []⟩
      ⟨(tGate, [0]), by simp, by simp [tGate, cliffordNames]⟩).1,
   (claim6_stabilizer_validate_then_delegate.2 ⟨1, 0, [(hGate, [0])], []⟩ none 0 (fun _ => 0)
      (by
        intro p hp
        simp only [List.mem_singleton] at hp
        subst hp
        simp [hGate, cliffordNames])).1⟩

theorem foldl_kron_dim (l : List ℕ) (A : NMat) (f : ℕ → NMat)
    (hf : ∀ q, (f q).dim = 2) :
    (l.foldl (fun acc q => acc.kron (f q)) A).dim = A.dim * 2 ^ l.length := by
  induction l generalizing A with
  | nil => simp
  | cons q l ih =>
    simp only [List.foldl_cons, List.length_cons]
    rw [ih]
    simp [NMat.kron, hf q]
    ring

/-- C1 (code bug): `tensor_kraus_operators` starts its Kronecker accumulator
at `np.eye(2)` instead of a scalar, so embedding 2x2 Kraus operators into an
`n`-qubit system yields operators of dimension `2 ^ (n + 1)`, not the
`2 ^ n` the spec states; consequently `NoiseChannel.apply` always fails with
a shape error instead of returning the Kraus sum — shown concretely for
`BitFlipChannel(0)` applied to qubit 0 of a 1-qubit density matrix. -/
theorem claim1_kraus_embedding_shape_bug :
    (∀ (ops : List NMat) (n t : ℕ), (∀ K ∈ ops, K.dim = 2) →
      ∀ M ∈ tensorKrausOperators ops n t, M.dim = 2 ^ (n + 1)) ∧
    (∀ n : ℕ, 2 ^ (n + 1) ≠ 2 ^ n) ∧
    noiseChannelApply (bitFlipKraus 0) rho0 0 1
      = Except.error "matmul: dimension mismatch" := by
  refine ⟨?_, ?_, ?_⟩
  · intro ops n t hops M hM
    simp only [tensorKrausOperators, List.mem_map] at hM
    obtain ⟨K, hK, rfl⟩ := hM
    rw [foldl_kron_dim _ _ _ (fun q => by
      by_cases hq : q = t <;> simp [hq, hops K hK, NMat.eye])]
    simp [NMat.eye, List.length_range, pow_succ]
    ring
  · intro n h
    have := Nat.pow_right_injective (le_refl 2) h
    omega
  · rfl

/-- Witness for C1: embedding the single 2x2 identity Kraus operator into a
1-qubit system produces a `2 ^ 2 = 4`-dimensional operator. -/
theorem claim1_witness :
    ((NMat.eye 2).kron (NMat.eye 2)).dim = 2 ^ (1 + 1) :=
  claim1_kraus_embedding_shape_bug.1 [NMat.eye 2] 1 0
    (by
      intro K hK
      rw [List.mem_singleton.mp hK]
      rfl)
    ((NMat.eye 2).kron (NMat.eye 2))
    (List.mem_singleton.mpr rfl)

/-- C8 (code bug): the gate-application einsum multiplies each amplitude by a
column sum of the gate instead of applying the unitary, so unit norm is not
preserved: applying the provided H gate to the unit statevector `|0⟩` yields
squared norm 2, violating the claimed `|norm - 1| <= 1e-9` invariant at the
very first gate of a measurement- and noise-free circuit. -/
theorem claim8_gate_application_breaks_norm :
    tns (applySingle hMat 0 (zeroVec 1)) = 2 ∧
    ¬ |Real.sqrt (tns (applySingle hMat 0 (zeroVec 1))) - 1| ≤ 1 / 1000000000 := by
  have h2 : Real.sqrt 2 * Real.sqrt 2 = 2 := Real.mul_self_sqrt (by norm_num)
  have hpos : 0 < Real.sqrt 2 := Real.sqrt_pos.mpr (by norm_num)
  have key : tns (applySingle hMat 0 (zeroVec 1)) = 2 := by
    show ∑ i : Fin (2 ^ 1), Complex.normSq (applySingle hMat 0 (zeroVec 1) i) = 2
    have hsum : (∑ i : Fin (2 ^ 1), Complex.normSq (applySingle hMat 0 (zeroVec 1) i))
        = Complex.normSq (applySingle hMat 0 (zeroVec 1) 0)
          + Complex.normSq (applySingle hMat 0 (zeroVec 1) 1) := Fin.sum_univ_two _
    rw [hsum]
    simp only [applySingle, zeroVec, hMat, fbit, bitAt, Fin.sum_univ_two]
    norm_num
    rw [← Complex.ofReal_inv, ← Complex.ofReal_add, Complex.normSq_ofReal]
    field_simp
    nlinarith [h2, hpos]
  refine ⟨key, ?_⟩
  rw [key]
  intro habs
  have hge : (1.4 : ℝ) ≤ Real.sqrt 2 := by
    rw [show (1.4 : ℝ) = Real.sqrt (1.4 ^ 2) from
      (Real.sqrt_sq (by norm_num)).symm]
    exact Real.sqrt_le_sqrt (by norm_num)
  have := abs_le.mp habs
  nlinarith [this.1, this.2, hge]

/-- C5 (code bug): the gate classes do not implement the claimed shared
contraction.  A 1-qubit `CustomGate` applied to a qubit of a 2-qubit state
raises numpy's matmul shape error (`gate_matrix @ state` only works when the
gate acts on all qubits), and the 1-qubit einsum path applied to `|0⟩`
disagrees with the genuine tensor contraction of the Hadamard unitary. -/
theorem claim5_shared_contraction_fails :
    applyGate ⟨"customX", .custom 1 (fun i j => if i = j then 0 else 1)⟩ [0] (zeroVec 2)
      = Except.error "matmul: dimension mismatch between gate matrix and state" ∧
    applySingle hMat 0 (zeroVec 1) ≠ trueApplySingle hMat 0 (zeroVec 1) := by
  constructor
  · rfl
  · have hx : Real.sqrt 2 ≠ 0 := ne_of_gt (Real.sqrt_pos.mpr (by norm_num))
    have hLHS : applySingle hMat 0 (zeroVec 1) 0
        = (((Real.sqrt 2)⁻¹ : ℝ) : ℂ) + (((Real.sqrt 2)⁻¹ : ℝ) : ℂ) := by
      show (∑ a : Fin 2, hMat a (fbit 1 0 (0 : Fin (2 ^ 1)).val)) * zeroVec 1 0
        = (((Real.sqrt 2)⁻¹ : ℝ) : ℂ) + (((Real.sqrt 2)⁻¹ : ℝ) : ℂ)
      rw [Fin.sum_univ_two]
      norm_num [hMat, fbit, bitAt, zeroVec]
    have hRHS : trueApplySingle hMat 0 (zeroVec 1) 0 = (((Real.sqrt 2)⁻¹ : ℝ) : ℂ) := by
      have hsum : trueApplySingle hMat 0 (zeroVec 1) 0
          = ((if ∀ p ∈ List.range 1, p ≠ 0 →
                bitAt 1 p (0 : Fin (2 ^ 1)).val = bitAt 1 p ((0 : Fin (2 ^ 1))).val
              then hMat (fbit 1 0 (0 : Fin (2 ^ 1)).val) (fbit 1 0 ((0 : Fin (2 ^ 1))).val)
                * zeroVec 1 0 else 0)
            + (if ∀ p ∈ List.range 1, p ≠ 0 →
                bitAt 1 p (0 : Fin (2 ^ 1)).val = bitAt 1 p ((1 : Fin (2 ^ 1))).val
              then hMat (fbit 1 0 (0 : Fin (2 ^ 1)).val) (fbit 1 0 ((1 : Fin (2 ^ 1))).val)
                * zeroVec 1 1 else 0)) := Fin.sum_univ_two _
      rw [hsum]
      norm_num [hMat, fbit, bitAt, zeroVec,
        show List.range 1 = [0] from rfl]
    intro h
    have h0 := congrFun h 0
    rw [hLHS, hRHS] at h0
    have hz : (((Real.sqrt 2)⁻¹ : ℝ) : ℂ) = 0 := by linear_combination h0
    rw [Complex.ofReal_eq_zero, inv_eq_zero] at hz
    exact hx hz

theorem fin2_eq_zero_or_one (x : Fin 2) : x = 0 ∨ x = 1 := by
  rcases x with ⟨v, hv⟩
  simp only [Fin.ext_iff]
  omega

theorem applySingle_h_zeroVec2 : applySingle hMat 0 (zeroVec 2) = bellBroken := by
  have h2 : Real.sqrt 2 * Real.sqrt 2 = 2 := Real.mul_self_sqrt (by norm_num)
  have hx : Real.sqrt 2 ≠ 0 := ne_of_gt (Real.sqrt_pos.mpr (by norm_num))
  have hval : (((Real.sqrt 2)⁻¹ : ℝ) : ℂ) + (((Real.sqrt 2)⁻¹ : ℝ) : ℂ)
      = ((Real.sqrt 2 : ℝ) : ℂ) := by
    rw [← Complex.ofReal_add, Complex.ofReal_inj]
    field_simp
    linarith [h2]
  funext i
  by_cases hi : i.val = 0
  · have hb : fbit 2 0 i.val = 0 := by
      simp [fbit, bitAt, hi, Fin.ext_iff]
    show (∑ a : Fin 2, hMat a (fbit 2 0 i.val)) * zeroVec 2 i = bellBroken i
    rw [Fin.sum_univ_two, hb]
    have e0 : hMat 0 0 = (((Real.sqrt 2)⁻¹ : ℝ) : ℂ) := by norm_num [hMat]
    have e1 : hMat 1 0 = (((Real.sqrt 2)⁻¹ : ℝ) : ℂ) := by norm_num [hMat]
    rw [e0, e1, hval]
    simp [zeroVec, bellBroken, hi]
  · show (∑ a : Fin 2, hMat a (fbit 2 0 i.val)) * zeroVec 2 i = bellBroken i
    simp [zeroVec, bellBroken, hi]

theorem applyTwo_cnot01 (ψ : QVec 2) : applyTwo cnotMat 0 1 ψ = ψ := by
  funext i
  show (if (0 : ℕ) = 1 then _ else fun i => (∑ a : Fin 2, ∑ b : Fin 2,
    cnotMat a b (fbit 2 0 i.val) (fbit 2 1 i.val)) * ψ i) i = ψ i
  rw [if_neg (by norm_num)]
  have hone : (∑ a : Fin 2, ∑ b : Fin 2,
      cnotMat a b (fbit 2 0 i.val) (fbit 2 1 i.val)) = 1 := by
    rcases fin2_eq_zero_or_one (fbit 2 0 i.val) with hc | hc <;>
      rcases fin2_eq_zero_or_one (fbit 2 1 i.val) with ht | ht <;>
      · rw [hc, ht, Fin.sum_univ_two, Fin.sum_univ_two, Fin.sum_univ_two]
        norm_num [cnotMat]
  rw [hone, one_mul]

/-- C3 (code bug): executing the Bell circuit from `|00⟩` on the statevector
backend yields amplitude `sqrt 2` at index 0 and 0 at index 3 — the einsum
bug makes H scale amplitudes by column sums and CNOT act as the identity —
so the claimed amplitude `1/sqrt 2` at index 3 is off by far more than the
1e-9 tolerance. -/
theorem claim3_bell_scenario_diverges :
    ∃ res : SVResult bellCircuit.numQubits,
      svExecute bellCircuit none 1 (fun _ => 0) = Except.ok res ∧
      res.state = bellBroken ∧
      res.state 3 = 0 ∧
      ¬ Complex.abs (res.state 3 - (((Real.sqrt 2)⁻¹ : ℝ) : ℂ)) ≤ 1 / 1000000000 := by
  have hgates : applyGates bellCircuit.gates (zeroVec bellCircuit.numQubits)
      = Except.ok bellBroken := by
    show (do
      let ψ1 ← applyGate hGate [0] (zeroVec 2)
      applyGates [(cnotGate, [0, 1])] ψ1) = Except.ok bellBroken
    rw [show applyGate hGate [0] (zeroVec 2)
        = Except.ok (applySingle hMat 0 (zeroVec 2)) from rfl]
    rw [applySingle_h_zeroVec2]
    show (do
      let ψ2 ← applyGate cnotGate [0, 1] bellBroken
      applyGates [] ψ2) = Except.ok bellBroken
    rw [show applyGate cnotGate [0, 1] bellBroken
        = Except.ok (applyTwo cnotMat 0 1 bellBroken) from rfl]
    rw [applyTwo_cnot01]
    rfl
  have hgates2 : applyGates bellCircuit.gates
      ((none : Option (QVec bellCircuit.numQubits)).getD (zeroVec bellCircuit.numQubits))
      = Except.ok bellBroken := hgates
  have hexec : svExecute bellCircuit none 1 (fun _ => 0)
      = Except.ok ⟨bellBroken, [[]],
          { backend := "StatevectorBackend", numQubits := 2, numGates := 2 }⟩ := by
    unfold svExecute
    rw [hgates2]
    rfl
  refine ⟨_, hexec, rfl, ?_, ?_⟩
  · rfl
  · have hle : Real.sqrt 2 ≤ 2 := by
      nlinarith [Real.mul_self_sqrt (show (0:ℝ) ≤ 2 by norm_num), Real.sqrt_nonneg 2]
    have hpos : 0 < Real.sqrt 2 := Real.sqrt_pos.mpr (by norm_num)
    have hinv : (1 : ℝ) / 2 ≤ (Real.sqrt 2)⁻¹ := by
      rw [one_div]
      exact inv_anti₀ hpos hle
    show ¬ Complex.abs ((0 : ℂ) - (((Real.sqrt 2)⁻¹ : ℝ) : ℂ)) ≤ 1 / 1000000000
    intro habs
    rw [zero_sub, map_neg_eq_map, Complex.abs_ofReal,
      abs_of_nonneg (inv_nonneg.mpr (Real.sqrt_nonneg 2))] at habs
    linarith

theorem purity_rhoMix :
    purity rhoMix = ((999998 / 1000000 * (999998 / 1000000)
      + 2 / 1000000 * (2 / 1000000) : ℝ) : ℂ) := by
  have h1 : ∀ f : Fin (2 ^ 1) → ℂ, ∑ i, f i = f 0 + f 1 := fun f => Fin.sum_univ_two f
  show (∑ i : Fin (2 ^ 1), ∑ j : Fin (2 ^ 1), rhoMix i j * rhoMix j i) = _
  simp only [h1]
  norm_num [rhoMix]

/-- C7 (counterexample): `to_statevector` does not raise on every density
matrix whose purity is farther than `1e-6` from 1 — the `np.isclose` call
keeps its default relative tolerance `1e-5`, so `rhoMix` (purity deficit
about `4e-6`) passes the check and a statevector is returned. -/
theorem claim7_counterexample :
    ¬ Complex.abs (purity rhoMix - 1) ≤ 1 / 1000000 ∧
    toStatevector rhoMix (zeroVec 1) = Except.ok (zeroVec 1) := by
  have habs : Complex.abs (purity rhoMix - 1)
      = |(999998 / 1000000 * (999998 / 1000000)
          + 2 / 1000000 * (2 / 1000000) : ℝ) - 1| := by
    rw [purity_rhoMix, ← Complex.ofReal_one, ← Complex.ofReal_sub, Complex.abs_ofReal]
  constructor
  · rw [habs]
    rw [abs_of_nonpos (by norm_num)]
    norm_num
  · unfold toStatevector
    rw [if_pos]
    unfold purityClose
    rw [habs, abs_of_nonpos (by norm_num), map_one]
    norm_num

/-- C7 (amended): for a unit pure state `psi`, the round trip through
`to_density_matrix` and `to_statevector` succeeds (the purity of
`|psi><psi|` is exactly 1) and any unit eigenvector of eigenvalue 1 that the
eigensolver returns equals `psi` up to a global phase; and `to_statevector`
raises exactly when the purity fails the `np.isclose` test with its actual
band `1e-6 + 1e-5` (not the bare `1e-6` of the original claim). -/
theorem claim7_roundtrip_up_to_phase :
    (∀ (n : ℕ) (ψ v : QVec n), tns ψ = 1 → tns v = 1 →
      (∀ i, (∑ j, outerDM ψ i j * v j) = v i) →
      toStatevector (outerDM ψ) v = Except.ok v ∧
      ∃ c : ℂ, Complex.abs c = 1 ∧ ∀ i, v i = c * ψ i) ∧
    (∀ (n : ℕ) (rho : DMat n) (v : QVec n), ¬ purityClose rho →
      toStatevector rho v = Except.error "Cannot extract statevector from mixed state") := by
  constructor
  · intro n ψ v hψ hv hvec
    have hterm : ∀ i j : Fin (2 ^ n),
        outerDM ψ i j * outerDM ψ j i
          = ((Complex.normSq (ψ i) : ℝ) : ℂ) * ((Complex.normSq (ψ j) : ℝ) : ℂ) := by
      intro i j
      unfold outerDM
      rw [← Complex.mul_conj (ψ i), ← Complex.mul_conj (ψ j)]
      ring
    have hpur : purity (outerDM ψ) = ((tns ψ : ℝ) : ℂ) * ((tns ψ : ℝ) : ℂ) := by
      unfold purity
      rw [Finset.sum_congr rfl (fun i _ => Finset.sum_congr rfl (fun j _ => hterm i j))]
      rw [← Finset.sum_mul_sum]
      unfold tns
      push_cast
      rfl
    have hclose : purityClose (outerDM ψ) := by
      unfold purityClose
      rw [hpur, hψ]
      norm_num
    have hphase : ∃ c : ℂ, Complex.abs c = 1 ∧ ∀ i, v i = c * ψ i := by
      refine ⟨∑ j, (starRingEnd ℂ) (ψ j) * v j, ?_, ?_⟩
      · have hvi : ∀ i, v i = (∑ j, (starRingEnd ℂ) (ψ j) * v j) * ψ i := by
          intro i
          rw [← hvec i]
          unfold outerDM
          rw [Finset.sum_mul]
          exact Finset.sum_congr rfl (fun j _ => by ring)
        have hnsq : Complex.normSq (∑ j, (starRingEnd ℂ) (ψ j) * v j) = 1 := by
          have : tns v = Complex.normSq (∑ j, (starRingEnd ℂ) (ψ j) * v j) * tns ψ := by
            unfold tns
            rw [Finset.mul_sum]
            exact Finset.sum_congr rfl (fun i _ => by
              rw [hvi i, Complex.normSq_mul])
          rw [hψ, hv, mul_one] at this
          exact this.symm
        rw [Complex.abs_apply, hnsq, Real.sqrt_one]
      · intro i
        rw [← hvec i]
        unfold outerDM
        rw [Finset.sum_mul]
        exact Finset.sum_congr rfl (fun j _ => by ring)
    refine ⟨?_, hphase⟩
    unfold toStatevector
    rw [if_pos hclose]
  · intro n rho v h
    unfold toStatevector
    rw [if_neg h]

/-- Witness for C7 at the concrete pure state `|0⟩`: the round trip returns
the state and the global phase is realized. -/
theorem claim7_witness :
    toStatevector (outerDM (zeroVec 1)) (zeroVec 1) = Except.ok (zeroVec 1) := by
  have h1 : ∀ f : Fin (2 ^ 1) → ℝ, ∑ i, f i = f 0 + f 1 := fun f => Fin.sum_univ_two f
  have h1c : ∀ f : Fin (2 ^ 1) → ℂ, ∑ i, f i = f 0 + f 1 := fun f => Fin.sum_univ_two f
  have htns : tns (zeroVec 1) = 1 := by
    unfold tns
    rw [h1]
    norm_num [zeroVec]
  have hvec : ∀ i, (∑ j, outerDM (zeroVec 1) i j * zeroVec 1 j) = zeroVec 1 i := by
    intro i
    rw [h1c]
    norm_num [outerDM, zeroVec]
  exact (claim7_roundtrip_up_to_phase.1 1 (zeroVec 1) (zeroVec 1) htns htns hvec).1

theorem tns_nonneg {n : ℕ} (ψ : QVec n) : 0 ≤ tns ψ :=
  Finset.sum_nonneg fun i _ => Complex.normSq_nonneg (ψ i)

theorem prob0_nonneg {n : ℕ} (ψ : QVec n) (q : ℕ) : 0 ≤ prob0 ψ q :=
  Finset.sum_nonneg fun i _ => by
    split
    · exact Complex.normSq_nonneg (ψ i)
    · exact le_refl 0

theorem tns_eq_zero_iff {n : ℕ} (ψ : QVec n) : tns ψ = 0 ↔ IsZeroV ψ := by
  unfold tns IsZeroV
  rw [Finset.sum_eq_zero_iff_of_nonneg (fun i _ => Complex.normSq_nonneg (ψ i))]
  constructor
  · intro h i
    exact Complex.normSq_eq_zero.mp (h i (Finset.mem_univ i))
  · intro h i _
    rw [h i]
    exact Complex.normSq_zero

theorem tns_maskV_zero {n : ℕ} (ψ : QVec n) (q : ℕ) :
    tns (maskV ψ q 0) = prob0 ψ q := by
  unfold tns maskV prob0
  refine Finset.sum_congr rfl fun i _ => ?_
  split
  · rfl
  · exact Complex.normSq_zero

theorem tns_maskV_split {n : ℕ} (ψ : QVec n) (q : ℕ) :
    tns (maskV ψ q 0) + tns (maskV ψ q 1) = tns ψ := by
  unfold tns maskV
  rw [← Finset.sum_add_distrib]
  refine Finset.sum_congr rfl fun i _ => ?_
  have hb : bitAt n q i.val < 2 := Nat.mod_lt _ (by norm_num)
  by_cases h0 : bitAt n q i.val = 0
  · rw [if_pos h0, if_neg (by omega)]
    simp
  · rw [if_neg h0, if_pos (by omega)]
    simp

theorem maskV_zero_of_ne {n : ℕ} (ψ : QVec n) (q o : ℕ) (i : Fin (2 ^ n))
    (h : bitAt n q i.val ≠ o) : maskV ψ q o i = 0 := by
  unfold maskV
  exact if_neg h

theorem maskV_of_definite {n : ℕ} {ψ : QVec n} {q o : ℕ} (h : Definite ψ q o) :
    maskV ψ q o = ψ := by
  funext i
  unfold maskV
  split
  · rfl
  · exact (h i (by assumption)).symm

theorem collapseV_zero_entry {n : ℕ} (ψ : QVec n) (q o : ℕ) (i : Fin (2 ^ n))
    (h : maskV ψ q o i = 0) : collapseV ψ q o i = 0 := by
  unfold collapseV
  split
  · show maskV ψ q o i / ((Real.sqrt (tns (maskV ψ q o)) : ℝ) : ℂ) = 0
    rw [h]
    exact zero_div _
  · exact h

theorem collapseV_definite {n : ℕ} (ψ : QVec n) (q o : ℕ) :
    Definite (collapseV ψ q o) q o := fun i hb =>
  collapseV_zero_entry ψ q o i (maskV_zero_of_ne ψ q o i hb)

theorem collapseV_preserves_zero {n : ℕ} (ψ : QVec n) (q o : ℕ) (i : Fin (2 ^ n))
    (h : ψ i = 0) : collapseV ψ q o i = 0 := by
  refine collapseV_zero_entry ψ q o i ?_
  unfold maskV
  split
  · exact h
  · rfl

theorem collapseV_tns {n : ℕ} (ψ : QVec n) (q o : ℕ)
    (h : 0 < tns (maskV ψ q o)) : tns (collapseV ψ q o) = 1 := by
  have hs : 0 < Real.sqrt (tns (maskV ψ q o)) := Real.sqrt_pos.mpr h
  have hss : Real.sqrt (tns (maskV ψ q o)) * Real.sqrt (tns (maskV ψ q o))
      = tns (maskV ψ q o) := Real.mul_self_sqrt (le_of_lt h)
  have hbeta : collapseV ψ q o
      = fun i => maskV ψ q o i / ((Real.sqrt (tns (maskV ψ q o)) : ℝ) : ℂ) := by
    unfold collapseV
    rw [if_pos hs]
  rw [hbeta]
  have hterm : ∀ i : Fin (2 ^ n),
      Complex.normSq (maskV ψ q o i / ((Real.sqrt (tns (maskV ψ q o)) : ℝ) : ℂ))
        = Complex.normSq (maskV ψ q o i) / tns (maskV ψ q o) := fun i => by
    rw [Complex.normSq_div, Complex.normSq_ofReal, hss]
  show ∑ i : Fin (2 ^ n),
      Complex.normSq (maskV ψ q o i / ((Real.sqrt (tns (maskV ψ q o)) : ℝ) : ℂ)) = 1
  rw [Finset.sum_congr rfl fun i _ => hterm i, ← Finset.sum_div]
  show tns (maskV ψ q o) / tns (maskV ψ q o) = 1
  exact div_self (ne_of_gt h)

theorem collapseV_of_mask_zero {n : ℕ} (ψ : QVec n) (q o : ℕ)
    (h : tns (maskV ψ q o) = 0) : IsZeroV (collapseV ψ q o) := by
  intro i
  exact collapseV_zero_entry ψ q o i ((tns_eq_zero_iff _).mp h i)

theorem measureQ_ok_inv {n : ℕ} {ψ : QVec n} {q : ℕ} {r : ℝ} {o : ℕ} {σ : QVec n}
    (h : measureQ ψ q r = Except.ok (o, σ)) :
    (0 ≤ prob0 ψ q ∧ prob0 ψ q ≤ 1) ∧ o = measureOutcome ψ q r ∧ σ = collapseV ψ q o := by
  unfold measureQ at h
  by_cases hv : 0 ≤ prob0 ψ q ∧ prob0 ψ q ≤ 1
  · rw [if_pos hv] at h
    have h2 := Except.ok.inj h
    have ho : measureOutcome ψ q r = o := congrArg Prod.fst h2
    have hσ : collapseV ψ q (measureOutcome ψ q r) = σ := congrArg Prod.snd h2
    exact ⟨hv, ho.symm, by rw [← hσ, ho]⟩
  · rw [if_neg hv] at h
    exact absurd h (by simp)

theorem measureOutcome_cases {n : ℕ} (ψ : QVec n) (q : ℕ) (r : ℝ) :
    (measureOutcome ψ q r = 0 ∧ r < prob0 ψ q) ∨
    (measureOutcome ψ q r = 1 ∧ ¬ r < prob0 ψ q) := by
  unfold measureOutcome
  by_cases hr : r < prob0 ψ q
  · exact Or.inl ⟨if_pos hr, hr⟩
  · exact Or.inr ⟨if_neg hr, hr⟩

theorem measureQ_classify {n : ℕ} {ψ : QVec n} {q : ℕ} {r : ℝ} {o : ℕ} {σ : QVec n}
    (hr0 : 0 ≤ r) (hr1 : r < 1)
    (h : measureQ ψ q r = Except.ok (o, σ)) :
    (o = 0 ∨ o = 1) ∧ Definite σ q o ∧ (∀ i, ψ i = 0 → σ i = 0) ∧
    (tns σ = 1 ∨ (IsZeroV σ ∧ o = 1)) ∧ (tns ψ = 1 → tns σ = 1) := by
  obtain ⟨hv, ho, hσ⟩ := measureQ_ok_inv h
  subst hσ
  have hoc := measureOutcome_cases ψ q r
  refine ⟨?_, collapseV_definite ψ q o, fun i hi => collapseV_preserves_zero ψ q o i hi,
    ?_, ?_⟩
  · rcases hoc with ⟨h0, _⟩ | ⟨h1, _⟩
    · exact Or.inl (ho.trans h0)
    · exact Or.inr (ho.trans h1)
  · by_cases hm : 0 < tns (maskV ψ q o)
    · exact Or.inl (collapseV_tns ψ q o hm)
    · have hmz : tns (maskV ψ q o) = 0 :=
        le_antisymm (not_lt.mp hm) (tns_nonneg _)
      refine Or.inr ⟨collapseV_of_mask_zero ψ q o hmz, ?_⟩
      rcases hoc with ⟨h0, hlt⟩ | ⟨h1, _⟩
      · exfalso
        have : o = 0 := ho.trans h0
        rw [this, tns_maskV_zero] at hmz
        rw [hmz] at hlt
        exact absurd (lt_of_le_of_lt hr0 hlt) (lt_irrefl 0)
      · exact ho.trans h1
  · intro hψ1
    have hm : 0 < tns (maskV ψ q o) := by
      rcases hoc with ⟨h0, hlt⟩ | ⟨h1, hge⟩
      · rw [ho.trans h0, tns_maskV_zero]
        exact lt_of_le_of_lt hr0 hlt
      · rw [ho.trans h1]
        have hsplit := tns_maskV_split ψ q
        rw [hψ1, tns_maskV_zero] at hsplit
        have : prob0 ψ q ≤ r := not_lt.mp hge
        linarith
    exact collapseV_tns ψ q o hm

theorem measureQ_fixpoint_unit {n : ℕ} {ψ : QVec n} {q o : ℕ} {r : ℝ}
    (hψ : tns ψ = 1) (hd : Definite ψ q o) (ho : o = 0 ∨ o = 1)
    (hr0 : 0 ≤ r) (hr1 : r < 1) :
    measureQ ψ q r = Except.ok (o, ψ) := by
  have hmask : maskV ψ q o = ψ := maskV_of_definite hd
  have hcol : collapseV ψ q o = ψ := by
    unfold collapseV
    rw [hmask, hψ, Real.sqrt_one]
    rw [if_pos one_pos]
    funext i
    show ψ i / ((1 : ℝ) : ℂ) = ψ i
    norm_num
  rcases ho with rfl | rfl
  · have hp : prob0 ψ q = 1 := by
      rw [← tns_maskV_zero, hmask, hψ]
    have hout : measureOutcome ψ q r = 0 := by
      unfold measureOutcome
      rw [hp]
      exact if_pos hr1
    unfold measureQ
    rw [if_pos (by rw [hp]; norm_num), hout, hcol]
  · have hp : prob0 ψ q = 0 := by
      rw [← tns_maskV_zero]
      refine (tns_eq_zero_iff _).mpr fun i => ?_
      unfold maskV
      split
      · exact hd i (by omega)
      · rfl
    have hout : measureOutcome ψ q r = 1 := by
      unfold measureOutcome
      rw [hp]
      exact if_neg (not_lt.mpr hr0)
    unfold measureQ
    rw [if_pos (by rw [hp]; norm_num), hout, hcol]

theorem measureQ_fixpoint_zero {n : ℕ} {ψ : QVec n} {q : ℕ} {r : ℝ}
    (hψ : IsZeroV ψ) (hr0 : 0 ≤ r) :
    measureQ ψ q r = Except.ok (1, ψ) := by
  have htz : tns ψ = 0 := (tns_eq_zero_iff _).mpr hψ
  have hp : prob0 ψ q = 0 := by
    rw [← tns_maskV_zero]
    refine (tns_eq_zero_iff _).mpr fun i => ?_
    unfold maskV
    split
    · exact hψ i
    · rfl
  have hmask : maskV ψ q 1 = ψ := by
    funext i
    unfold maskV
    split
    · rfl
    · exact (hψ i).symm
  have hout : measureOutcome ψ q r = 1 := by
    unfold measureOutcome
    rw [hp]
    exact if_neg (not_lt.mpr hr0)
  have hcol : collapseV ψ q 1 = ψ := by
    unfold collapseV
    rw [hmask, htz, Real.sqrt_zero]
    rw [if_neg (lt_irrefl 0)]
  unfold measureQ
  rw [if_pos (by rw [hp]; norm_num), hout, hcol]

theorem runShot_nil_inv {n : ℕ} {ψ σ : QVec n} {r : ℕ → ℝ} {k : ℕ}
    {L : List (String × ℕ)}
    (h : runShot ψ [] r k = Except.ok (L, σ)) : L = [] ∧ σ = ψ := by
  have h2 := Except.ok.inj h
  exact ⟨(congrArg Prod.fst h2).symm, (congrArg Prod.snd h2).symm⟩

theorem runShot_cons_inv {n : ℕ} {ψ σ : QVec n} {q cb : ℤ} {ms : List (ℤ × ℤ)}
    {r : ℕ → ℝ} {k : ℕ} {L : List (String × ℕ)}
    (h : runShot ψ ((q, cb) :: ms) r k = Except.ok (L, σ)) :
    ∃ (o : ℕ) (ψ1 : QVec n) (L2 : List (String × ℕ)),
      measureQ ψ q.toNat (r k) = Except.ok (o, ψ1) ∧
      runShot ψ1 ms r (k + 1) = Except.ok (L2, σ) ∧
      L = (toString cb, o) :: L2 := by
  unfold runShot at h
  cases hm : measureQ ψ q.toNat (r k) with
  | error e =>
    rw [hm] at h
    exact absurd h (by simp [Bind.bind, Except.bind])
  | ok p =>
    obtain ⟨o, ψ1⟩ := p
    rw [hm] at h
    have h2 : (do
        let x ← runShot ψ1 ms r (k + 1)
        match x with
        | (L2, σ2) => Except.ok ((toString cb, o) :: L2, σ2)) = Except.ok (L, σ) := h
    cases hs : runShot ψ1 ms r (k + 1) with
    | error e =>
      rw [hs] at h2
      exact absurd h2 (by simp [Bind.bind, Except.bind])
    | ok p2 =>
      obtain ⟨L2, σ2⟩ := p2
      rw [hs] at h2
      have h3 : (((toString cb, o) :: L2, σ2) : List (String × ℕ) × QVec n) = (L, σ) :=
        Except.ok.inj h2
      have hL : (toString cb, o) :: L2 = L := congrArg Prod.fst h3
      have hσ : σ2 = σ := congrArg Prod.snd h3
      subst hσ
      exact ⟨o, ψ1, L2, rfl, hs, hL.symm⟩

theorem runShot_preserve {n : ℕ} {ψ σ : QVec n} {ms : List (ℤ × ℤ)} {r : ℕ → ℝ}
    {k : ℕ} {L : List (String × ℕ)}
    (hr : ValidStream r)
    (h : runShot ψ ms r k = Except.ok (L, σ)) :
    (∀ i, ψ i = 0 → σ i = 0) ∧ (tns ψ = 1 → tns σ = 1) := by
  induction ms generalizing ψ k L with
  | nil =>
    obtain ⟨_, rfl⟩ := runShot_nil_inv h
    exact ⟨fun i hi => hi, fun hh => hh⟩
  | cons m ms ih =>
    obtain ⟨q, cb⟩ := m
    obtain ⟨o, ψ1, L2, hm, hs, _⟩ := runShot_cons_inv h
    have hcls := measureQ_classify (hr k).1 (hr k).2 hm
    have hrest := ih hs
    exact ⟨fun i hi => hrest.1 i (hcls.2.2.1 i hi),
      fun hψ => hrest.2 (hcls.2.2.2.2 hψ)⟩

theorem runShot_replay {n : ℕ} {ψ σ : QVec n} {ms : List (ℤ × ℤ)} {r r2 : ℕ → ℝ}
    {k k2 : ℕ} {L : List (String × ℕ)}
    (hr : ValidStream r) (hr2 : ValidStream r2)
    (h : runShot ψ ms r k = Except.ok (L, σ)) :
    runShot σ ms r2 k2 = Except.ok (L, σ) := by
  induction ms generalizing ψ k k2 L with
  | nil =>
    obtain ⟨rfl, rfl⟩ := runShot_nil_inv h
    rfl
  | cons m ms ih =>
    obtain ⟨q, cb⟩ := m
    obtain ⟨o, ψ1, L2, hm, hs, rfl⟩ := runShot_cons_inv h
    have hcls := measureQ_classify (hr k).1 (hr k).2 hm
    have hrest := runShot_preserve hr hs
    have hdef : Definite σ q.toNat o := fun i hb => hrest.1 i (hcls.2.1 i hb)
    have hσcase : tns σ = 1 ∨ (IsZeroV σ ∧ o = 1) := by
      rcases hcls.2.2.2.1 with h1 | ⟨hz, ho1⟩
      · exact Or.inl (hrest.2 h1)
      · exact Or.inr ⟨fun i => hrest.1 i (hz i), ho1⟩
    have hfix : measureQ σ q.toNat (r2 k2) = Except.ok (o, σ) := by
      rcases hσcase with h1 | ⟨hz, ho1⟩
      · exact measureQ_fixpoint_unit h1 hdef hcls.1 (hr2 k2).1 (hr2 k2).2
      · rw [ho1]
        exact measureQ_fixpoint_zero hz (hr2 k2).1
    show (do
      let x ← measureQ σ q.toNat (r2 k2)
      match x with
      | (o2, ψ2) => do
        let y ← runShot ψ2 ms r2 (k2 + 1)
        match y with
        | (L3, σ3) => Except.ok ((toString cb, o2) :: L3, σ3))
      = Except.ok ((toString cb, o) :: L2, σ)
    rw [hfix]
    have hre : runShot σ ms r2 (k2 + 1) = Except.ok (L2, σ) := ih hs
    show (do
      let y ← runShot σ ms r2 (k2 + 1)
      match y with
      | (L3, σ3) => Except.ok ((toString cb, o) :: L3, σ3))
      = Except.ok ((toString cb, o) :: L2, σ)
    rw [hre]
    rfl

theorem runShots_replay {n : ℕ} {σ1 : QVec n} {ms : List (ℤ × ℤ)} {r : ℕ → ℝ}
    {L0 : List (String × ℕ)}
    (hfix : ∀ k2, runShot σ1 ms r k2 = Except.ok (L0, σ1)) :
    ∀ (s k2 : ℕ), runShots σ1 ms r k2 s = Except.ok (List.replicate s L0, σ1) := by
  intro s
  induction s with
  | zero => intro k2; rfl
  | succ s ih =>
    intro k2
    show (do
      let x ← runShot σ1 ms r k2
      match x with
      | (L, σ) => do
        let y ← runShots σ ms r (k2 + ms.length) s
        match y with
        | (Ls, σ2) => Except.ok (L :: Ls, σ2))
      = Except.ok (List.replicate (s + 1) L0, σ1)
    rw [hfix k2]
    show (do
      let y ← runShots σ1 ms r (k2 + ms.length) s
      match y with
      | (Ls, σ2) => Except.ok (L0 :: Ls, σ2))
      = Except.ok (List.replicate (s + 1) L0, σ1)
    rw [ih (k2 + ms.length)]
    rfl

theorem getD_replicate {α : Type} (d a : α) :
    ∀ (s j : ℕ), j < s → (List.replicate s a).getD j d = a := by
  intro s
  induction s with
  | zero =>
    intro j hj
    omega
  | succ s ih =>
    intro j hj
    cases j with
    | zero => rfl
    | succ j => exact ih j (by omega)

/-- C2: on the statevector backend, the shot loop resets the working state to
the current — already measurement-collapsed — state before each shot after
the first, so whenever an execution with at least one measurement and at
least two shots completes, every shot's outcome dictionary equals shot 0's
(collapsed amplitudes are exact zeros, making every re-measurement
deterministic regardless of the random draws). -/
theorem claim2_subsequent_shots_repeat_shot0
    (c : Circuit) (initial : Option (QVec c.numQubits)) (shots : ℕ) (r : ℕ → ℝ)
    (res : SVResult c.numQubits)
    (hr : ValidStream r) (hshots : 2 ≤ shots) (hms : c.measurements ≠ [])
    (hexec : svExecute c initial shots r = Except.ok res) :
    res.measurements.length = shots ∧
    ∀ i, i < shots → res.measurements.getD i [] = res.measurements.getD 0 [] := by
  obtain ⟨s, rfl⟩ : ∃ s, shots = s + 1 := ⟨shots - 1, by omega⟩
  unfold svExecute at hexec
  cases hg : applyGates c.gates (initial.getD (zeroVec c.numQubits)) with
  | error e =>
    rw [hg] at hexec
    exact absurd hexec (by simp [Bind.bind, Except.bind])
  | ok σ =>
    rw [hg] at hexec
    have hexec2 : (do
        let x ← runShots σ c.measurements r 0 (s + 1)
        match x with
        | (Ls, σf) =>
          Except.ok (⟨σf,
            if c.measurements.isEmpty then List.replicate (s + 1) ([] : List (String × ℕ))
            else Ls,
            { backend := "StatevectorBackend", numQubits := c.numQubits,
              numGates := c.gates.length }⟩ : SVResult c.numQubits))
        = Except.ok res := hexec
    cases h0 : runShot σ c.measurements r 0 with
    | error e =>
      have hdead : runShots σ c.measurements r 0 (s + 1) = Except.error e := by
        show (do
          let x ← runShot σ c.measurements r 0
          match x with
          | (L, σ2) => do
            let y ← runShots σ2 c.measurements r (0 + c.measurements.length) s
            match y with
            | (Ls, σ3) => Except.ok (L :: Ls, σ3)) = Except.error e
        rw [h0]
        rfl
      rw [hdead] at hexec2
      exact absurd hexec2 (by simp [Bind.bind, Except.bind])
    | ok p =>
      obtain ⟨L0, σ1⟩ := p
      have hfix : ∀ k2, runShot σ1 c.measurements r k2 = Except.ok (L0, σ1) :=
        fun k2 => runShot_replay hr hr h0
      have hS : runShots σ c.measurements r 0 (s + 1)
          = Except.ok (L0 :: List.replicate s L0, σ1) := by
        show (do
          let x ← runShot σ c.measurements r 0
          match x with
          | (L, σ2) => do
            let y ← runShots σ2 c.measurements r (0 + c.measurements.length) s
            match y with
            | (Ls, σ3) => Except.ok (L :: Ls, σ3))
          = Except.ok (L0 :: List.replicate s L0, σ1)
        rw [h0]
        show (do
          let y ← runShots σ1 c.measurements r (0 + c.measurements.length) s
          match y with
          | (Ls, σ3) => Except.ok (L0 :: Ls, σ3))
          = Except.ok (L0 :: List.replicate s L0, σ1)
        rw [runShots_replay hfix s (0 + c.measurements.length)]
        rfl
      rw [hS] at hexec2
      have hempty : c.measurements.isEmpty = false := by
        cases hcm : c.measurements with
        | nil => exact absurd hcm hms
        | cons a l => rfl
      have h4 : Except.ok (⟨σ1,
          if c.measurements.isEmpty then List.replicate (s + 1) ([] : List (String × ℕ))
          else L0 :: List.replicate s L0,
          { backend := "StatevectorBackend", numQubits := c.numQubits,
            numGates := c.gates.length }⟩ : SVResult c.numQubits)
          = Except.ok res := hexec2
      rw [hempty] at h4
      have h5 : Except.ok (⟨σ1, L0 :: List.replicate s L0,
          { backend := "StatevectorBackend", numQubits := c.numQubits,
            numGates := c.gates.length }⟩ : SVResult c.numQubits)
          = Except.ok res := h4
      have hres : res = ⟨σ1, L0 :: List.replicate s L0,
          { backend := "StatevectorBackend", numQubits := c.numQubits,
            numGates := c.gates.length }⟩ := (Except.ok.inj h5).symm
      subst hres
      constructor
      · show (L0 :: List.replicate s L0).length = s + 1
        simp
      · intro i hi
        cases i with
        | zero => rfl
        | succ j =>
          show (List.replicate s L0).getD j [] = L0
          exact getD_replicate [] L0 s j (by omega)

theorem tns_zeroVec_one : tns (zeroVec 1) = 1 := by
  have h1 : ∀ f : Fin (2 ^ 1) → ℝ, ∑ i, f i = f 0 + f 1 := fun f => Fin.sum_univ_two f
  unfold tns
  simp only [h1]
  norm_num [zeroVec]

theorem definite_zeroVec : Definite (zeroVec 1) 0 0 := fun i hb => by
  unfold zeroVec
  refine if_neg fun hi => hb ?_
  rw [hi]
  rfl

theorem measure_zeroVec_example :
    measureQ (zeroVec 1) 0 ((1 : ℝ) / 2) = Except.ok (0, zeroVec 1) :=
  measureQ_fixpoint_unit tns_zeroVec_one definite_zeroVec (Or.inl rfl)
    (by norm_num) (by norm_num)

theorem runShot_example (k : ℕ) :
    runShot (zeroVec 1) [((0 : ℤ), (0 : ℤ))] (fun _ => (1 : ℝ) / 2) k
      = Except.ok ([(toString (0 : ℤ), 0)], zeroVec 1) := by
  show (do
    let x ← measureQ (zeroVec 1) ((0 : ℤ)).toNat ((fun _ => (1 : ℝ) / 2) k)
    match x with
    | (o, ψ1) => do
      let y ← runShot ψ1 [] (fun _ => (1 : ℝ) / 2) (k + 1)
      match y with
      | (L, σ) => Except.ok ((toString (0 : ℤ), o) :: L, σ))
    = Except.ok ([(toString (0 : ℤ), 0)], zeroVec 1)
  rw [show measureQ (zeroVec 1) ((0 : ℤ)).toNat ((fun _ => (1 : ℝ) / 2) k)
      = Except.ok (0, zeroVec 1) from measure_zeroVec_example]
  rfl

theorem svExecute_measure_example :
    svExecute cW none 2 (fun _ => (1 : ℝ) / 2)
      = Except.ok ⟨zeroVec 1, [[(toString (0 : ℤ), 0)], [(toString (0 : ℤ), 0)]],
          { backend := "StatevectorBackend", numQubits := 1, numGates := 0 }⟩ := by
  have hrs : runShots (zeroVec 1) cW.measurements (fun _ => (1 : ℝ) / 2) 0 2
      = Except.ok ([[(toString (0 : ℤ), 0)], [(toString (0 : ℤ), 0)]], zeroVec 1) :=
    runShots_replay (fun k2 => runShot_example k2) 2 0
  show (do
    let x ← runShots (zeroVec 1) cW.measurements (fun _ => (1 : ℝ) / 2) 0 2
    match x with
    | (Ls, σf) =>
      Except.ok (⟨σf,
        if cW.measurements.isEmpty then List.replicate 2 ([] : List (String × ℕ)) else Ls,
        { backend := "StatevectorBackend", numQubits := cW.numQubits,
          numGates := cW.gates.length }⟩ : SVResult cW.numQubits))
    = Except.ok ⟨zeroVec 1, [[(toString (0 : ℤ), 0)], [(toString (0 : ℤ), 0)]],
        { backend := "StatevectorBackend", numQubits := 1, numGates := 0 }⟩
  rw [hrs]
  rfl

/-- Witness for C2: executing the concrete one-measurement circuit for two
shots produces two identical outcome dictionaries. -/
theorem claim2_witness :
    resW.measurements.length = 2 ∧
    resW.measurements.getD 1 [] = resW.measurements.getD 0 [] :=
  ⟨(claim2_subsequent_shots_repeat_shot0 cW none 2 (fun _ => (1 : ℝ) / 2) resW
      (fun k => ⟨by norm_num, by norm_num⟩) (by norm_num) (by simp [cW])
      svExecute_measure_example).1,
   (claim2_subsequent_shots_repeat_shot0 cW none 2 (fun _ => (1 : ℝ) / 2) resW
      (fun k => ⟨by norm_num, by norm_num⟩) (by norm_num) (by simp [cW])
      svExecute_measure_example).2 1 (by norm_num)⟩

end QuSim
